import Mathlib

/-!
# Monotonic Chunkwise Attention (MoChA): verification of the demo notebook

Shallow embedding of the four pure functions of `Demo.ipynb`:
`moving_sum`, `moving_max`, `efficient_chunkwise_attention` and
`stable_chunkwise_attention`.

Modelling choices:
* A `(batch, T)` float tensor is a function `Fin B → Fin T → ℚ`; arithmetic is
  exact rational arithmetic.
* The exponential is an explicit parameter `E : ℚ → ℚ` of every definition that
  uses it (the real exponential is not computable); theorems assume of `E`
  exactly the algebraic facts of `exp` they need (positivity,
  `E (a + b) = E a * E b`).
* IEEE infinities appear in the source only as padding values and are modelled
  by their exact effect: `max(-∞, x) = x` (the `-∞` padding of `moving_max` is
  `⊥ : WithBot ℚ`), `exp(x - ∞) = 0` and a `0`-numerator term divided by the
  `+∞` padding is `0` (the padded summands of the stable version are literally
  `0`).  Each definition documents where this happens.
-/

namespace MoCha

/-- A `(batch_size, sequence_length)` array, as in the notebook. -/
abbrev Arr (B T : ℕ) := Fin B → Fin T → ℚ

variable {B T : ℕ}

/-- One row of `tf.pad(x, [[0, 0], [back, forward]])`, indexed by positions of
the padded row: position `p` holds `row (p - back)` when that index is in
range, and the zero padding otherwise.  (Positions `p ≥ back + T` are the
`forward` right padding; the definition does not need `forward` explicitly.) -/
def padZero (row : Fin T → ℚ) (back : ℕ) (p : ℕ) : ℚ :=
  if h : back ≤ p ∧ p - back < T then row ⟨p - back, h.2⟩ else 0

/-- `moving_sum(x, back, forward)` of the notebook: zero-pad each row with
`back` zeros on the left and `forward` zeros on the right, then convolve with a
kernel of `back + forward + 1` ones (`tf.nn.conv1d`, `padding='VALID'`): output
`j` is the sum of the padded row over positions `j, …, j + back + forward`. -/
def moving_sum (x : Arr B T) (back forward : ℕ) : Arr B T :=
  fun i j => ∑ k ∈ Finset.range (back + forward + 1), padZero (x i) back (j.val + k)

/-- One row of `tf.pad(x, [[0, 0], [w - 1, 0]], constant_values=-inf)`:
position `p` of the padded row holds `row (p - (w - 1))` when in range and the
`-∞` padding (`⊥`) otherwise. -/
def padNegInf (row : Fin T → ℚ) (w : ℕ) (p : ℕ) : WithBot ℚ :=
  if h : w - 1 ≤ p ∧ p - (w - 1) < T then (row ⟨p - (w - 1), h.2⟩ : ℚ) else ⊥

/-- `moving_max(x, w)` of the notebook: pad each row on the left with `w - 1`
copies of `-∞`, then max-pool with window `w`, stride 1 (`tf.nn.max_pool`):
output `j` is the max of the padded row over positions `j, …, j + w - 1`.
The pooled max is never `-∞` (for `w ≥ 1` the window always contains the
in-range position `j`), and `.unbot' 0` extracts the rational value. -/
def moving_max (x : Arr B T) (w : ℕ) : Arr B T :=
  fun i j =>
    (((Finset.range w).sup fun k => padNegInf (x i) w (j.val + k)).unbot' 0)

/-- `tf.reduce_max(softmax_logits, 1, keepdims=True)`: the max of row `i`.
The max of a nonempty row is never `⊥`; `.unbot' 0` extracts the value. -/
def rowMax (x : Arr B T) (i : Fin B) : ℚ :=
  (((Finset.univ : Finset (Fin T)).sup fun j => ((x i j : ℚ) : WithBot ℚ)).unbot' 0)

/-- The clamp floor `1e-5` of `efficient_chunkwise_attention`. -/
def clampFloor : ℚ := 1 / 100000

/-- `softmax_exp` of `efficient_chunkwise_attention`: subtract the row max from
every logit, exponentiate, and clamp to the floor `1e-5`
(`tf.maximum(tf.exp(softmax_logits - max), 1e-5)`). -/
def softmax_exp (E : ℚ → ℚ) (u : Arr B T) : Arr B T :=
  fun i j => max (E (u i j - rowMax u i)) clampFloor

/-- `softmax_denominators` of `efficient_chunkwise_attention`:
`moving_sum(softmax_exp, chunk_size - 1, 0)`, the causal window sum of the
clamped exponentials. -/
def softmax_denominators (E : ℚ → ℚ) (w : ℕ) (u : Arr B T) : Arr B T :=
  moving_sum (softmax_exp E u) (w - 1) 0

/-- `efficient_chunkwise_attention(chunk_size, emit_probs, softmax_logits)`:
`probs = softmax_exp * moving_sum(emit_probs / softmax_denominators, 0,
chunk_size - 1)`. -/
def efficient_chunkwise_attention (E : ℚ → ℚ) (w : ℕ) (emit_probs u : Arr B T) :
    Arr B T :=
  fun i j =>
    softmax_exp E u i j *
      moving_sum (fun a b => emit_probs a b / softmax_denominators E w u a b)
        0 (w - 1) i j

/-- The per-chunk softmax denominators `d` of `stable_chunkwise_attention`
(called `softmax_denominators` there): frame the `-∞`-left-padded logits into
length-`w` frames (frame `t` covers original positions `t - w + 1, …, t`),
subtract the framed sliding max `logits_max t = moving_max u w t`,
exponentiate and sum each frame.  A `-∞` padding entry contributes
`exp(-∞ - m) = 0`, which is the `else 0` branch. -/
def stable_denominators (E : ℚ → ℚ) (w : ℕ) (u : Arr B T) : Arr B T :=
  fun i t => ∑ k ∈ Finset.range w,
    if h : w - 1 ≤ t.val + k ∧ t.val + k - (w - 1) < T then
      E (u i ⟨t.val + k - (w - 1), h.2⟩ - moving_max u w i t)
    else 0

/-- `stable_chunkwise_attention(chunk_size, emit_probs, softmax_logits)`:
output `j` sums, over the chunks `t = j, …, j + w - 1` that contain `j`, the
framed emit probability `emit_probs t` times the softmax numerator
`exp(u j - logits_max t)` divided by the framed denominator `d t`.  Past the
end of the sequence (`j + k ≥ T`) the source pads the framed `emit_probs` with
`0`, the framed max with `+∞` (so the numerator is `exp(u j - ∞) = 0`) and the
framed denominators with `+∞`; the summand `0 * 0 / ∞` is exactly `0`, the
`else 0` branch. -/
def stable_chunkwise_attention (E : ℚ → ℚ) (w : ℕ) (emit_probs u : Arr B T) :
    Arr B T :=
  fun i j => ∑ k ∈ Finset.range w,
    if h : j.val + k < T then
      emit_probs i ⟨j.val + k, h⟩ *
        E (u i j - moving_max u w i ⟨j.val + k, h⟩) /
        stable_denominators E w u i ⟨j.val + k, h⟩
    else 0

/-- The value of a row at an arbitrary integer index, with out-of-range
indices reading as `0`; used only to state window-sum specifications. -/
def extendZero (row : Fin T → ℚ) (m : ℤ) : ℚ :=
  if h : 0 ≤ m ∧ m < (T : ℤ) then row ⟨m.toNat, by omega⟩ else 0

/-- A row read at a natural index, out-of-range reading as `0`; proof-side
abbreviation for the zero-padded framed `emit_probs`. -/
def extendRow (row : Fin T → ℚ) (p : ℕ) : ℚ :=
  if h : p < T then row ⟨p, h⟩ else 0

/-- Proof-side abbreviation: the unnormalised sum `∑ E (u l)` over the
in-range part of the chunk ending at `t`.  Both versions' denominators for
that chunk are this sum divided by `E` of their respective shift. -/
def chunkExpSum (E : ℚ → ℚ) (w : ℕ) (u : Arr B T) : Arr B T :=
  fun i t => ∑ k ∈ Finset.range w,
    if h : w - 1 ≤ t.val + k ∧ t.val + k - (w - 1) < T then
      E (u i ⟨t.val + k - (w - 1), h.2⟩)
    else 0

/-- A concrete `(1, 2)` array used to instantiate theorems with hypotheses. -/
def xW : Arr 1 2 := fun _ j => if j.val = 0 then 3 else 5

/-- A concrete emit-probability array whose single row sums to 1. -/
def alphaW : Arr 1 2 := fun _ _ => 1 / 2

/-- A computable dyadic stand-in for the exponential, used to instantiate the
development at concrete inputs: on an integer argument `n` it is exactly
`2 ^ n`, so it is positive and multiplicative on the integer logits of the
divergence example below. -/
def e2 (q : ℚ) : ℚ := if 0 ≤ q then 2 ^ q.num.natAbs else 1 / 2 ^ q.num.natAbs

/-- The logits of the divergence example: one entry pushed far down, so that
`e2` of the shifted logit (`2 ^ (-40) ≈ 9.1e-13`) falls below the clamp floor
`1e-5` and the clamp of the efficient version activates. -/
def uD : Arr 1 2 := fun _ j => if j.val = 0 then 0 else -40

/-- `moving_sum` unfolded at one entry. -/
lemma moving_sum_apply (x : Arr B T) (back forward : ℕ) (i : Fin B) (j : Fin T) :
    moving_sum x back forward i j
      = ∑ k ∈ Finset.range (back + forward + 1), padZero (x i) back (j.val + k) :=
  rfl

/-- The window-sum characterisation of `moving_sum`. -/
lemma moving_sum_eq_window (x : Arr B T) (back forward : ℕ) (i : Fin B)
    (j : Fin T) :
    moving_sum x back forward i j
      = ∑ m ∈ Finset.Icc ((j.val : ℤ) - back) ((j.val : ℤ) + forward),
          extendZero (x i) m := by
  rw [moving_sum_apply]
  refine Finset.sum_nbij' (fun k => (j.val : ℤ) - back + k)
    (fun m => (m - ((j.val : ℤ) - back)).toNat) ?_ ?_ ?_ ?_ ?_
  · intro k hk
    simp only [Finset.mem_range] at hk
    simp only [Finset.mem_Icc]
    omega
  · intro m hm
    simp only [Finset.mem_Icc] at hm
    simp only [Finset.mem_range]
    omega
  · intro k hk
    simp only [Finset.mem_range] at hk
    dsimp only
    omega
  · intro m hm
    simp only [Finset.mem_Icc] at hm
    dsimp only
    omega
  · intro k hk
    simp only [Finset.mem_range] at hk
    dsimp only
    unfold padZero extendZero
    by_cases h : back ≤ j.val + k ∧ j.val + k - back < T
    · rw [dif_pos h, dif_pos (by omega)]
      congr 1
      apply Fin.ext
      dsimp only
      omega
    · rw [dif_neg h, dif_neg (by omega)]

/-- `moving_sum` with a degenerate window is the identity. -/
lemma moving_sum_zero_zero (x : Arr B T) : moving_sum x 0 0 = x := by
  funext i j
  rw [moving_sum_apply]
  rw [show (0 + 0 + 1 : ℕ) = 1 from rfl, Finset.sum_range_one]
  unfold padZero
  rw [dif_pos ⟨Nat.zero_le _, by simp⟩]
  exact congrArg (x i) (Fin.ext (by simp))

/-- C3: `moving_sum(x, back, forward)` has the same shape as `x` (enforced by
its type) and entry `(i, j)` is the sum of `x i` over the integer window
`j - back, …, j + forward`, out-of-range indices contributing `0`; in
particular `moving_sum(x, 0, 0) = x`. -/
theorem moving_sum_window_spec (x : Arr B T) (back forward : ℕ)
    (i : Fin B) (j : Fin T) :
    (moving_sum x back forward i j
      = ∑ m ∈ Finset.Icc ((j.val : ℤ) - back) ((j.val : ℤ) + forward),
          extendZero (x i) m)
    ∧ moving_sum x 0 0 = x :=
  ⟨moving_sum_eq_window x back forward i j, moving_sum_zero_zero x⟩

/-- C10: `moving_sum` is linear in its array argument: it maps pointwise sums
to pointwise sums and pointwise scalar multiples to pointwise scalar
multiples. -/
theorem moving_sum_linear (x y : Arr B T) (c : ℚ) (back forward : ℕ) :
    (moving_sum (fun i j => x i j + y i j) back forward
      = fun i j => moving_sum x back forward i j + moving_sum y back forward i j)
    ∧ (moving_sum (fun i j => c * x i j) back forward
      = fun i j => c * moving_sum x back forward i j) := by
  constructor
  · funext i j
    rw [moving_sum_apply, moving_sum_apply, moving_sum_apply,
      ← Finset.sum_add_distrib]
    refine Finset.sum_congr rfl fun k _ => ?_
    unfold padZero
    by_cases h : back ≤ j.val + k ∧ j.val + k - back < T
    · rw [dif_pos h, dif_pos h, dif_pos h]
    · rw [dif_neg h, dif_neg h, dif_neg h, add_zero]
  · funext i j
    rw [moving_sum_apply, moving_sum_apply, Finset.mul_sum]
    refine Finset.sum_congr rfl fun k _ => ?_
    unfold padZero
    by_cases h : back ≤ j.val + k ∧ j.val + k - back < T
    · rw [dif_pos h, dif_pos h]
    · rw [dif_neg h, dif_neg h, mul_zero]

/-- Every entry of the padded clamped exponentials is nonnegative. -/
lemma padZero_softmax_exp_nonneg (E : ℚ → ℚ) (u : Arr B T) (i : Fin B)
    (b p : ℕ) : 0 ≤ padZero (softmax_exp E u i) b p := by
  unfold padZero
  by_cases h : b ≤ p ∧ p - b < T
  · rw [dif_pos h]
    exact le_trans (by norm_num [clampFloor]) (le_max_right _ _)
  · rw [dif_neg h]

/-- The clamp floor is positive. -/
lemma clampFloor_pos : (0 : ℚ) < clampFloor := by norm_num [clampFloor]

/-- The clamp keeps every clamped exponential at or above the floor. -/
lemma clampFloor_le_softmax_exp (E : ℚ → ℚ) (u : Arr B T) (i : Fin B)
    (j : Fin T) : clampFloor ≤ softmax_exp E u i j :=
  le_max_right _ _

/-- The clamped exponentials are strictly positive. -/
lemma softmax_exp_pos (E : ℚ → ℚ) (u : Arr B T) (i : Fin B) (j : Fin T) :
    0 < softmax_exp E u i j :=
  lt_of_lt_of_le clampFloor_pos (clampFloor_le_softmax_exp E u i j)

/-- Each denominator window contains position `j` itself, so every entry of
`softmax_denominators` is at least the clamp floor. -/
lemma clampFloor_le_softmax_denominators (E : ℚ → ℚ) (u : Arr B T) (w : ℕ)
    (i : Fin B) (j : Fin T) :
    clampFloor ≤ softmax_denominators E w u i j := by
  unfold softmax_denominators
  rw [moving_sum_apply]
  have hmem : w - 1 ∈ Finset.range (w - 1 + 0 + 1) := by
    simp only [Finset.mem_range]; omega
  have hterm : clampFloor ≤ padZero (softmax_exp E u i) (w - 1) (j.val + (w - 1)) := by
    unfold padZero
    rw [dif_pos ⟨by omega, by simp⟩]
    exact le_max_right _ _
  calc clampFloor ≤ padZero (softmax_exp E u i) (w - 1) (j.val + (w - 1)) := hterm
    _ ≤ ∑ k ∈ Finset.range (w - 1 + 0 + 1),
          padZero (softmax_exp E u i) (w - 1) (j.val + k) :=
        Finset.single_le_sum
          (fun k _ => padZero_softmax_exp_nonneg E u i (w - 1) (j.val + k)) hmem

/-- The denominators of the efficient version are strictly positive. -/
lemma softmax_denominators_pos' (E : ℚ → ℚ) (u : Arr B T) (w : ℕ)
    (i : Fin B) (j : Fin T) : 0 < softmax_denominators E w u i j :=
  lt_of_lt_of_le clampFloor_pos (clampFloor_le_softmax_denominators E u w i j)

/-- C6: in `efficient_chunkwise_attention` the clamped exponential is at least
the floor `1e-5` for every exponential function `E`, every input and every
position; hence every entry of `softmax_denominators` is at least `1e-5` and
strictly positive, so dividing `emit_probs` by it never divides by zero. -/
theorem softmax_denominators_pos (E : ℚ → ℚ) (u : Arr B T) (w : ℕ)
    (i : Fin B) (j : Fin T) :
    clampFloor ≤ softmax_exp E u i j
    ∧ clampFloor ≤ softmax_denominators E w u i j
    ∧ 0 < softmax_denominators E w u i j :=
  ⟨clampFloor_le_softmax_exp E u i j,
    clampFloor_le_softmax_denominators E u w i j,
    softmax_denominators_pos' E u w i j⟩

/-- `moving_max` unfolded at one entry. -/
lemma moving_max_apply (x : Arr B T) (w : ℕ) (i : Fin B) (j : Fin T) :
    moving_max x w i j
      = (((Finset.range w).sup fun k => padNegInf (x i) w (j.val + k)).unbot' 0) :=
  rfl

/-- Every in-range window position is dominated by the pooled max. -/
lemma coe_le_moving_max_sup (x : Arr B T) (w : ℕ) (i : Fin B) (j : Fin T)
    (t : Fin T) (ht1 : t.val ≤ j.val) (ht2 : j.val < t.val + w) :
    ((x i t : ℚ) : WithBot ℚ)
      ≤ (Finset.range w).sup fun k => padNegInf (x i) w (j.val + k) := by
  have hk : t.val + (w - 1) - j.val ∈ Finset.range w := by
    simp only [Finset.mem_range]; omega
  have hpad : padNegInf (x i) w (j.val + (t.val + (w - 1) - j.val))
      = ((x i t : ℚ) : WithBot ℚ) := by
    unfold padNegInf
    rw [dif_pos ⟨by omega, by omega⟩]
    exact congrArg _ (congrArg _ (Fin.ext (by dsimp only; omega)))
  calc ((x i t : ℚ) : WithBot ℚ)
      = padNegInf (x i) w (j.val + (t.val + (w - 1) - j.val)) := hpad.symm
    _ ≤ (Finset.range w).sup fun k => padNegInf (x i) w (j.val + k) := by
        exact @Finset.le_sup (WithBot ℚ) ℕ _ _ (Finset.range w)
          (fun k => padNegInf (x i) w (j.val + k)) _ hk

/-- The pooled max of `moving_max` is attained at an in-range window
position. -/
lemma moving_max_attained (x : Arr B T) (w : ℕ) (hw : 1 ≤ w) (i : Fin B)
    (j : Fin T) :
    ∃ t : Fin T, (t.val ≤ j.val ∧ j.val < t.val + w)
      ∧ ((Finset.range w).sup fun k => padNegInf (x i) w (j.val + k))
          = ((x i t : ℚ) : WithBot ℚ) := by
  have hbot : ((Finset.range w).sup fun k => padNegInf (x i) w (j.val + k)) ≠ ⊥ := by
    intro hb
    have := coe_le_moving_max_sup x w i j j le_rfl (by omega)
    rw [hb, le_bot_iff] at this
    exact WithBot.coe_ne_bot this
  obtain ⟨k₀, hk₀, hS⟩ := Finset.exists_mem_eq_sup (Finset.range w)
    ⟨0, by simp only [Finset.mem_range]; omega⟩
    (fun k => padNegInf (x i) w (j.val + k))
  simp only [Finset.mem_range] at hk₀
  unfold padNegInf at hS
  by_cases h₀ : w - 1 ≤ j.val + k₀ ∧ j.val + k₀ - (w - 1) < T
  · rw [dif_pos h₀] at hS
    exact ⟨⟨j.val + k₀ - (w - 1), h₀.2⟩, ⟨by dsimp only; omega, by dsimp only; omega⟩, hS⟩
  · rw [dif_neg h₀] at hS
    exact absurd hS hbot

/-- `moving_max x w i j` is the greatest value of `x i` over the in-range part
of the window `j - w + 1, …, j`. -/
lemma moving_max_isGreatest (x : Arr B T) (w : ℕ) (hw : 1 ≤ w) (i : Fin B)
    (j : Fin T) :
    IsGreatest {v : ℚ | ∃ t : Fin T,
        (t.val ≤ j.val ∧ j.val < t.val + w) ∧ x i t = v}
      (moving_max x w i j) := by
  obtain ⟨t₀, ht₀, hS⟩ := moving_max_attained x w hw i j
  rw [moving_max_apply, hS]
  constructor
  · exact ⟨t₀, ht₀, rfl⟩
  · rintro v ⟨t, ht, rfl⟩
    have := coe_le_moving_max_sup x w i j t ht.1 ht.2
    rw [hS] at this
    simpa using this

/-- `moving_max` with window 1 is the identity. -/
lemma moving_max_one (x : Arr B T) : moving_max x 1 = x := by
  funext i j
  obtain ⟨t, ht, hv⟩ := (moving_max_isGreatest x 1 le_rfl i j).1
  have ht' : t = j := Fin.ext (by omega)
  rw [← hv, ht']

/-- C4: `moving_max(x, w)` has the same shape as `x` (enforced by its type)
and entry `(i, j)` is the greatest value of `x i` over the in-range positions
of the window `j - w + 1, …, j` (out-of-range positions are excluded from the
result, not read as `0` or `-∞`); in particular `moving_max(x, 1) = x`. -/
theorem moving_max_window_spec (x : Arr B T) (w : ℕ) (hw : 1 ≤ w)
    (i : Fin B) (j : Fin T) :
    IsGreatest {v : ℚ | ∃ t : Fin T,
        (t.val ≤ j.val ∧ j.val < t.val + w) ∧ x i t = v}
      (moving_max x w i j)
    ∧ moving_max x 1 = x :=
  ⟨moving_max_isGreatest x w hw i j, moving_max_one x⟩

/-- Witness for C4 at the concrete array `xW`, `w = 2`, entry `(0, 1)`. -/
theorem moving_max_window_spec_witness :
    (1 : ℕ) ≤ 2
    ∧ (IsGreatest {v : ℚ | ∃ t : Fin 2,
          (t.val ≤ (1 : Fin 2).val ∧ (1 : Fin 2).val < t.val + 2) ∧ xW 0 t = v}
        (moving_max xW 2 0 1)
      ∧ moving_max xW 1 = xW) :=
  ⟨by norm_num, moving_max_window_spec xW 2 (by norm_num) 0 1⟩

/-- With `chunk_size = 1`, `softmax_denominators` is `softmax_exp` itself. -/
lemma softmax_denominators_one (E : ℚ → ℚ) (u : Arr B T) :
    softmax_denominators E 1 u = softmax_exp E u :=
  moving_sum_zero_zero _

/-- With `chunk_size = 1`, the efficient version returns `emit_probs`
exactly: the clamped exponential cancels against the denominator, which is the
same clamped exponential (and is nonzero thanks to the clamp floor). -/
lemma efficient_one (E : ℚ → ℚ) (α u : Arr B T) :
    efficient_chunkwise_attention E 1 α u = α := by
  funext i j
  have h2 : moving_sum (fun a b => α a b / softmax_denominators E 1 u a b) 0 0
      = fun a b => α a b / softmax_denominators E 1 u a b :=
    moving_sum_zero_zero _
  calc efficient_chunkwise_attention E 1 α u i j
      = softmax_exp E u i j *
          (moving_sum (fun a b => α a b / softmax_denominators E 1 u a b)
            0 0 i j) := rfl
    _ = softmax_exp E u i j * (α i j / softmax_denominators E 1 u i j) := by
        rw [h2]
    _ = softmax_exp E u i j * (α i j / softmax_exp E u i j) := by
        rw [softmax_denominators_one]
    _ = α i j := by
        rw [mul_comm, div_mul_cancel₀ _ (ne_of_gt (softmax_exp_pos E u i j))]

/-- With `chunk_size = 1`, every per-chunk denominator of the stable version
is `E 0`. -/
lemma stable_denominators_one (E : ℚ → ℚ) (u : Arr B T) (i : Fin B)
    (t : Fin T) : stable_denominators E 1 u i t = E 0 := by
  unfold stable_denominators
  rw [Finset.sum_range_one, moving_max_one u,
    dif_pos ⟨by omega, by simp⟩]
  show E (u i t - u i t) = E 0
  rw [sub_self]

/-- With `chunk_size = 1` the stable version returns `emit_probs` exactly,
provided `E 0 ≠ 0` (for the exponential, `exp 0 = 1`). -/
lemma stable_one (E : ℚ → ℚ) (α u : Arr B T) (hE : E 0 ≠ 0) :
    stable_chunkwise_attention E 1 α u = α := by
  funext i j
  unfold stable_chunkwise_attention
  rw [Finset.sum_range_one, dif_pos (by simp : j.val + 0 < T)]
  show α i j * E (u i j - moving_max u 1 i j) / stable_denominators E 1 u i j
    = α i j
  rw [moving_max_one u, sub_self, stable_denominators_one E u i j,
    mul_div_assoc, div_self hE, mul_one]

/-- C5: with `chunk_size = 1` each chunk is a single element (the softmax over
one logit is `E 0 / E 0 = 1`), and both `efficient_chunkwise_attention` and
`stable_chunkwise_attention` return exactly `emit_probs`, for every input. -/
theorem chunk_size_one (E : ℚ → ℚ) (α u : Arr B T) (hE : E 0 ≠ 0) :
    efficient_chunkwise_attention E 1 α u = α
    ∧ stable_chunkwise_attention E 1 α u = α :=
  ⟨efficient_one E α u, stable_one E α u hE⟩

/-- Witness for C5: the constant-one exponential (which satisfies `E 0 ≠ 0`)
at the concrete input `(alphaW, xW)`. -/
theorem chunk_size_one_witness :
    ((fun _ : ℚ => (1 : ℚ)) 0 ≠ 0)
    ∧ (efficient_chunkwise_attention (fun _ : ℚ => 1) 1 alphaW xW = alphaW
      ∧ stable_chunkwise_attention (fun _ : ℚ => 1) 1 alphaW xW = alphaW) :=
  ⟨by norm_num, chunk_size_one (fun _ : ℚ => 1) alphaW xW (by norm_num)⟩

/-- The row max is the value at a position dominating the whole row. -/
lemma rowMax_eq (u : Arr B T) (i : Fin B) (j₀ : Fin T)
    (h1 : ∀ j, u i j ≤ u i j₀) : rowMax u i = u i j₀ := by
  unfold rowMax
  have h : ((Finset.univ : Finset (Fin T)).sup fun j => ((u i j : ℚ) : WithBot ℚ))
      = ((u i j₀ : ℚ) : WithBot ℚ) := by
    apply le_antisymm
    · exact Finset.sup_le fun j _ => WithBot.coe_le_coe.mpr (h1 j)
    · exact @Finset.le_sup (WithBot ℚ) (Fin T) _ _ Finset.univ
        (fun j => ((u i j : ℚ) : WithBot ℚ)) j₀ (Finset.mem_univ j₀)
  rw [h, WithBot.unbot'_coe]

/-- The sliding max is the value at a window position dominating the whole
in-range window. -/
lemma moving_max_eq (x : Arr B T) (w : ℕ) (hw : 1 ≤ w) (i : Fin B)
    (j t₀ : Fin T) (h₀ : t₀.val ≤ j.val ∧ j.val < t₀.val + w)
    (hmax : ∀ t : Fin T, t.val ≤ j.val → j.val < t.val + w → x i t ≤ x i t₀) :
    moving_max x w i j = x i t₀ := by
  obtain ⟨⟨t, ht, hv⟩, hub⟩ := moving_max_isGreatest x w hw i j
  apply le_antisymm
  · rw [← hv]
    exact hmax t ht.1 ht.2
  · exact hub ⟨t₀, h₀, rfl⟩

/-- The row max of the divergence logits. -/
lemma uD_rowMax : rowMax uD 0 = 0 := by
  rw [rowMax_eq uD 0 0 (by intro j; fin_cases j <;> norm_num [uD])]
  norm_num [uD]

/-- The clamped exponential of the divergence logits at position 0. -/
lemma uD_sexp0 : softmax_exp e2 uD 0 0 = 1 := by
  unfold softmax_exp
  have h : uD 0 0 - rowMax uD 0 = 0 := by rw [uD_rowMax]; norm_num [uD]
  rw [h, show e2 0 = 1 by norm_num [e2],
    max_eq_left (by norm_num [clampFloor])]

/-- At position 1 the exponential falls below the floor and the clamp
activates. -/
lemma uD_sexp1 : softmax_exp e2 uD 0 1 = clampFloor := by
  unfold softmax_exp
  have h : uD 0 1 - rowMax uD 0 = -40 := by rw [uD_rowMax]; norm_num [uD]
  rw [h, show e2 (-40) = 1 / 2 ^ 40 by norm_num [e2],
    max_eq_right (by norm_num [clampFloor])]

/-- The efficient denominator of the chunk ending at position 0. -/
lemma uD_D0 : softmax_denominators e2 2 uD 0 0 = 1 := by
  unfold softmax_denominators
  rw [moving_sum_apply, show (2 - 1 + 0 + 1 : ℕ) = 2 from rfl,
    Finset.sum_range_succ, Finset.sum_range_one]
  unfold padZero
  rw [dif_neg (by norm_num), dif_pos (by norm_num)]
  rw [zero_add]
  show softmax_exp e2 uD 0 0 = 1
  exact uD_sexp0

/-- The efficient denominator of the chunk ending at position 1: the clamped
value `1e-5` enters the sum. -/
lemma uD_D1 : softmax_denominators e2 2 uD 0 1 = 1 + clampFloor := by
  unfold softmax_denominators
  rw [moving_sum_apply, show (2 - 1 + 0 + 1 : ℕ) = 2 from rfl,
    Finset.sum_range_succ, Finset.sum_range_one]
  unfold padZero
  rw [dif_pos (by norm_num), dif_pos (by norm_num)]
  show softmax_exp e2 uD 0 0 + softmax_exp e2 uD 0 1 = 1 + clampFloor
  rw [uD_sexp0, uD_sexp1]

/-- The efficient version at entry `(0, 0)` of the divergence example. -/
lemma uD_efficient : efficient_chunkwise_attention e2 2 alphaW uD 0 0
    = 1 / 2 + (1 / 2) / (1 + clampFloor) := by
  unfold efficient_chunkwise_attention
  rw [moving_sum_apply, show (0 + (2 - 1) + 1 : ℕ) = 2 from rfl,
    Finset.sum_range_succ, Finset.sum_range_one]
  unfold padZero
  rw [dif_pos (by norm_num), dif_pos (by norm_num)]
  show softmax_exp e2 uD 0 0 *
      (alphaW 0 0 / softmax_denominators e2 2 uD 0 0
        + alphaW 0 1 / softmax_denominators e2 2 uD 0 1)
    = 1 / 2 + (1 / 2) / (1 + clampFloor)
  rw [uD_sexp0, uD_D0, uD_D1]
  norm_num [alphaW]

/-- The sliding max of the divergence logits at position 0. -/
lemma uD_m0 : moving_max uD 2 0 0 = 0 := by
  rw [moving_max_eq uD 2 (by norm_num) 0 0 0 ⟨le_rfl, by norm_num⟩
    (fun t _ _ => by fin_cases t <;> norm_num [uD])]
  norm_num [uD]

/-- The sliding max of the divergence logits at position 1. -/
lemma uD_m1 : moving_max uD 2 0 1 = 0 := by
  rw [moving_max_eq uD 2 (by norm_num) 0 1 0 ⟨by norm_num, by norm_num⟩
    (fun t _ _ => by fin_cases t <;> norm_num [uD])]
  norm_num [uD]

/-- The exact per-chunk denominator of the chunk ending at position 0. -/
lemma uD_d0 : stable_denominators e2 2 uD 0 0 = 1 := by
  unfold stable_denominators
  rw [Finset.sum_range_succ, Finset.sum_range_one]
  rw [dif_neg (by norm_num), dif_pos (by norm_num)]
  rw [zero_add, uD_m0]
  show e2 (uD 0 0 - 0) = 1
  norm_num [uD, e2]

/-- The exact per-chunk denominator of the chunk ending at position 1: the
tiny exponential `2 ^ (-40)` enters the sum exactly. -/
lemma uD_d1 : stable_denominators e2 2 uD 0 1 = 1 + 1 / 2 ^ 40 := by
  unfold stable_denominators
  rw [Finset.sum_range_succ, Finset.sum_range_one]
  rw [dif_pos (by norm_num), dif_pos (by norm_num)]
  rw [uD_m1]
  show e2 (uD 0 0 - 0) + e2 (uD 0 1 - 0) = 1 + 1 / 2 ^ 40
  norm_num [uD, e2]

/-- The stable version at entry `(0, 0)` of the divergence example. -/
lemma uD_stable : stable_chunkwise_attention e2 2 alphaW uD 0 0
    = 1 / 2 + (1 / 2) / (1 + 1 / 2 ^ 40) := by
  unfold stable_chunkwise_attention
  rw [Finset.sum_range_succ, Finset.sum_range_one]
  rw [dif_pos (by norm_num), dif_pos (by norm_num)]
  show alphaW 0 0 * e2 (uD 0 0 - moving_max uD 2 0 0)
        / stable_denominators e2 2 uD 0 0
      + alphaW 0 1 * e2 (uD 0 0 - moving_max uD 2 0 1)
        / stable_denominators e2 2 uD 0 1
    = 1 / 2 + (1 / 2) / (1 + 1 / 2 ^ 40)
  rw [uD_m0, uD_m1, uD_d0, uD_d1]
  norm_num [alphaW, uD, e2]

/-- C2: a concrete input on which the two versions return measurably
different values (both return a value; neither can fail, being total
functions): with logits `(0, -40)` and uniform emit probabilities, the
efficient version clamps `e2 (-40)` up to the floor `1e-5` and returns
`1/2 + (1/2) / (1 + 1e-5)` at entry `(0, 0)`, while the stable version
returns the exact `1/2 + (1/2) / (1 + 2 ^ (-40))`. -/
theorem efficient_ne_stable :
    efficient_chunkwise_attention e2 2 alphaW uD 0 0
      ≠ stable_chunkwise_attention e2 2 alphaW uD 0 0 := by
  rw [uD_efficient, uD_stable]
  norm_num [clampFloor]

/-- Adding a constant to both arguments of a `WithBot` join adds it to the
join (the IEEE `max` with a `-∞` absorbing addition behaves the same way). -/
lemma withBot_sup_add (x y : WithBot ℚ) (c : ℚ) :
    (x ⊔ y) + (c : WithBot ℚ) = (x + c) ⊔ (y + c) := by
  induction x using WithBot.recBotCoe with
  | bot => simp [WithBot.bot_add]
  | coe x =>
    induction y using WithBot.recBotCoe with
    | bot => simp [WithBot.bot_add]
    | coe y =>
      rw [← WithBot.coe_sup, ← WithBot.coe_add, ← WithBot.coe_add,
        ← WithBot.coe_add, ← WithBot.coe_sup, WithBot.coe_inj]
      exact (max_add_add_right x y c).symm

/-- A finite `WithBot` supremum commutes with adding a constant. -/
lemma sup_add_coe {ι : Type} (s : Finset ι) (f : ι → WithBot ℚ) (c : ℚ) :
    s.sup f + (c : WithBot ℚ) = s.sup fun t => f t + (c : WithBot ℚ) :=
  Finset.comp_sup_eq_sup_comp (· + (c : WithBot ℚ))
    (fun x y => withBot_sup_add x y c) (by simp)

/-- `unbot'` of a shifted non-`⊥` value. -/
lemma unbot'_add_coe (S : WithBot ℚ) (c : ℚ) (hS : S ≠ ⊥) :
    (S + (c : WithBot ℚ)).unbot' 0 = S.unbot' 0 + c := by
  obtain ⟨s, rfl⟩ := WithBot.ne_bot_iff_exists.mp hS
  rw [← WithBot.coe_add, WithBot.unbot'_coe, WithBot.unbot'_coe]

/-- The row max shifts by a per-row constant. -/
lemma rowMax_add_const (u : Arr B T) (c : Fin B → ℚ) (i : Fin B)
    (j₀ : Fin T) :
    rowMax (fun a b => u a b + c a) i = rowMax u i + c i := by
  unfold rowMax
  have h1 : ((Finset.univ : Finset (Fin T)).sup
        fun b => ((u i b + c i : ℚ) : WithBot ℚ))
      = ((Finset.univ : Finset (Fin T)).sup fun b => ((u i b : ℚ) : WithBot ℚ))
          + ((c i : ℚ) : WithBot ℚ) := by
    rw [sup_add_coe]
    exact Finset.sup_congr rfl fun b _ => (WithBot.coe_add _ _).symm
  have hS : ((Finset.univ : Finset (Fin T)).sup
      fun b => ((u i b : ℚ) : WithBot ℚ)) ≠ ⊥ := by
    intro hb
    have hle : ((u i j₀ : ℚ) : WithBot ℚ)
        ≤ (Finset.univ : Finset (Fin T)).sup fun b => ((u i b : ℚ) : WithBot ℚ) := by
      exact @Finset.le_sup (WithBot ℚ) (Fin T) _ _ Finset.univ
        (fun b => ((u i b : ℚ) : WithBot ℚ)) j₀ (Finset.mem_univ j₀)
    rw [hb, le_bot_iff] at hle
    exact WithBot.coe_ne_bot hle
  rw [h1, unbot'_add_coe _ _ hS]

/-- The `-∞`-padded row of a shifted input is the shifted padded row. -/
lemma padNegInf_add_const (row : Fin T → ℚ) (c : ℚ) (w p : ℕ) :
    padNegInf (fun b => row b + c) w p = padNegInf row w p + (c : WithBot ℚ) := by
  unfold padNegInf
  by_cases h : w - 1 ≤ p ∧ p - (w - 1) < T
  · rw [dif_pos h, dif_pos h, WithBot.coe_add]
  · rw [dif_neg h, dif_neg h]
    simp

/-- The sliding max shifts by a per-row constant (for a nonempty window). -/
lemma moving_max_add_const (u : Arr B T) (c : Fin B → ℚ) (w : ℕ)
    (hw : 1 ≤ w) :
    moving_max (fun a b => u a b + c a) w
      = fun i j => moving_max u w i j + c i := by
  funext i j
  rw [moving_max_apply, moving_max_apply]
  have h1 : ((Finset.range w).sup
        fun k => padNegInf (fun b => u i b + c i) w (j.val + k))
      = ((Finset.range w).sup fun k => padNegInf (u i) w (j.val + k))
          + ((c i : ℚ) : WithBot ℚ) := by
    rw [sup_add_coe]
    exact Finset.sup_congr rfl fun k _ => padNegInf_add_const (u i) (c i) w _
  have hS : ((Finset.range w).sup fun k => padNegInf (u i) w (j.val + k)) ≠ ⊥ := by
    intro hb
    have hle := coe_le_moving_max_sup u w i j j le_rfl (by omega)
    rw [hb, le_bot_iff] at hle
    exact WithBot.coe_ne_bot hle
  rw [h1, unbot'_add_coe _ _ hS]

/-- The shifted-and-clamped exponentials are invariant under adding a per-row
constant to the logits: the row max shifts by the same constant. -/
lemma softmax_exp_add_const (E : ℚ → ℚ) (u : Arr B T) (c : Fin B → ℚ) :
    softmax_exp E (fun a b => u a b + c a) = softmax_exp E u := by
  funext i j
  unfold softmax_exp
  rw [rowMax_add_const u c i j]
  congr 2
  ring

/-- The per-chunk denominators of the stable version are invariant under
adding a per-row constant to the logits. -/
lemma stable_denominators_add_const (E : ℚ → ℚ) (u : Arr B T)
    (c : Fin B → ℚ) (w : ℕ) (hw : 1 ≤ w) :
    stable_denominators E w (fun a b => u a b + c a)
      = stable_denominators E w u := by
  funext i t
  unfold stable_denominators
  rw [moving_max_add_const u c w hw]
  refine Finset.sum_congr rfl fun k _ => ?_
  by_cases h : w - 1 ≤ t.val + k ∧ t.val + k - (w - 1) < T
  · rw [dif_pos h, dif_pos h]
    dsimp only
    congr 1
    ring
  · rw [dif_neg h, dif_neg h]

/-- C9: both versions are invariant under adding a per-row constant to the
logits: in the efficient version the row max shifts by the same constant, and
in the stable version every per-chunk sliding max shifts by the same constant,
so all shifted differences cancel. -/
theorem shift_invariance (E : ℚ → ℚ) (w : ℕ) (hw : 1 ≤ w)
    (α u : Arr B T) (c : Fin B → ℚ) :
    efficient_chunkwise_attention E w α (fun a b => u a b + c a)
      = efficient_chunkwise_attention E w α u
    ∧ stable_chunkwise_attention E w α (fun a b => u a b + c a)
      = stable_chunkwise_attention E w α u := by
  constructor
  · unfold efficient_chunkwise_attention softmax_denominators
    rw [softmax_exp_add_const E u c]
  · funext i j
    unfold stable_chunkwise_attention
    rw [moving_max_add_const u c w hw, stable_denominators_add_const E u c w hw]
    refine Finset.sum_congr rfl fun k _ => ?_
    by_cases h : j.val + k < T
    · rw [dif_pos h, dif_pos h]
      dsimp only
      congr 3
      ring
    · rw [dif_neg h, dif_neg h]

/-- Witness for C9: the constant-one exponential at the concrete input
`(alphaW, xW)`, window 2, with the single row shifted by 7. -/
theorem shift_invariance_witness :
    (1 : ℕ) ≤ 2
    ∧ (efficient_chunkwise_attention (fun _ : ℚ => 1) 2 alphaW
          (fun a b => xW a b + (fun _ : Fin 1 => (7 : ℚ)) a)
        = efficient_chunkwise_attention (fun _ : ℚ => 1) 2 alphaW xW
      ∧ stable_chunkwise_attention (fun _ : ℚ => 1) 2 alphaW
          (fun a b => xW a b + (fun _ : Fin 1 => (7 : ℚ)) a)
        = stable_chunkwise_attention (fun _ : ℚ => 1) 2 alphaW xW) :=
  ⟨by norm_num,
    shift_invariance (fun _ : ℚ => 1) 2 (by norm_num) alphaW xW
      (fun _ : Fin 1 => (7 : ℚ))⟩

/-- Every summand of `chunkExpSum` is nonnegative when `E` is positive. -/
lemma chunkExpSum_term_nonneg (E : ℚ → ℚ) (w : ℕ) (u : Arr B T)
    (hpos : ∀ q, 0 < E q) (i : Fin B) (t : Fin T) (k : ℕ) :
    0 ≤ if h : w - 1 ≤ t.val + k ∧ t.val + k - (w - 1) < T then
          E (u i ⟨t.val + k - (w - 1), h.2⟩)
        else 0 := by
  by_cases h : w - 1 ≤ t.val + k ∧ t.val + k - (w - 1) < T
  · rw [dif_pos h]
    exact le_of_lt (hpos _)
  · rw [dif_neg h]

/-- The chunk ending at `t` always contains the in-range position `t`, so
`chunkExpSum` is strictly positive when `E` is. -/
lemma chunkExpSum_pos (E : ℚ → ℚ) (w : ℕ) (hw : 1 ≤ w) (u : Arr B T)
    (hpos : ∀ q, 0 < E q) (i : Fin B) (t : Fin T) :
    0 < chunkExpSum E w u i t := by
  unfold chunkExpSum
  have hmem : w - 1 ∈ Finset.range w := by
    simp only [Finset.mem_range]; omega
  have hvt : E (u i t)
      = if h : w - 1 ≤ t.val + (w - 1) ∧ t.val + (w - 1) - (w - 1) < T then
          E (u i ⟨t.val + (w - 1) - (w - 1), h.2⟩)
        else 0 := by
    rw [dif_pos ⟨by omega, by simp⟩]
    exact congrArg E (congrArg (u i) (Fin.ext (by dsimp only; omega)))
  calc (0 : ℚ) < E (u i t) := hpos _
    _ = _ := hvt
    _ ≤ _ := Finset.single_le_sum
        (fun k _ => chunkExpSum_term_nonneg E w u hpos i t k) hmem

/-- The efficient denominators, when the clamp never activates, are
`chunkExpSum` normalised by `E` of the row max. -/
lemma softmax_denominators_eq_div (E : ℚ → ℚ) (w : ℕ) (hw : 1 ≤ w)
    (u : Arr B T) (hpos : ∀ q, 0 < E q)
    (hEsub : ∀ a b, E (a - b) = E a / E b)
    (hclamp : ∀ i j, clampFloor ≤ E (u i j - rowMax u i))
    (i : Fin B) (t : Fin T) :
    softmax_denominators E w u i t
      = chunkExpSum E w u i t / E (rowMax u i) := by
  unfold softmax_denominators chunkExpSum
  rw [moving_sum_apply, show (w - 1 + 0 + 1 : ℕ) = w by omega,
    eq_div_iff (ne_of_gt (hpos _)), Finset.sum_mul]
  refine Finset.sum_congr rfl fun k _ => ?_
  unfold padZero softmax_exp
  by_cases h : w - 1 ≤ t.val + k ∧ t.val + k - (w - 1) < T
  · rw [dif_pos h, dif_pos h]
    rw [max_eq_left (hclamp i _), hEsub,
      div_mul_cancel₀ _ (ne_of_gt (hpos _))]
  · rw [dif_neg h, dif_neg h, zero_mul]

/-- The stable denominators are `chunkExpSum` normalised by `E` of the
per-chunk sliding max. -/
lemma stable_denominators_eq_div (E : ℚ → ℚ) (w : ℕ) (u : Arr B T)
    (hpos : ∀ q, 0 < E q) (hEsub : ∀ a b, E (a - b) = E a / E b)
    (i : Fin B) (t : Fin T) :
    stable_denominators E w u i t
      = chunkExpSum E w u i t / E (moving_max u w i t) := by
  unfold stable_denominators chunkExpSum
  rw [eq_div_iff (ne_of_gt (hpos _)), Finset.sum_mul]
  refine Finset.sum_congr rfl fun k _ => ?_
  by_cases h : w - 1 ≤ t.val + k ∧ t.val + k - (w - 1) < T
  · rw [dif_pos h, dif_pos h, hEsub,
      div_mul_cancel₀ _ (ne_of_gt (hpos _))]
  · rw [dif_neg h, dif_neg h, zero_mul]

/-- A positive multiplicative `E` sends `0` to `1`. -/
lemma hom_map_zero (E : ℚ → ℚ) (hpos : ∀ q, 0 < E q)
    (hhom : ∀ a b, E (a + b) = E a * E b) : E 0 = 1 := by
  have h := hhom 0 0
  rw [add_zero] at h
  have h2 : E 0 * E 0 = E 0 * 1 := by rw [mul_one, ← h]
  exact mul_left_cancel₀ (ne_of_gt (hpos 0)) h2

/-- A positive multiplicative `E` sends differences to quotients. -/
lemma hom_map_sub (E : ℚ → ℚ) (hpos : ∀ q, 0 < E q)
    (hhom : ∀ a b, E (a + b) = E a * E b) (a b : ℚ) :
    E (a - b) = E a / E b := by
  have h := hhom (a - b) b
  rw [sub_add_cancel] at h
  rw [eq_div_iff (ne_of_gt (hpos b))]
  exact h.symm

/-- C1: for every positive multiplicative exponential, every `emit_probs`
with rows summing to 1 and every `softmax_logits` of small dynamic range
(meaning the `1e-5` clamp floor never activates, i.e. `E` of every shifted
logit is at least the floor), the two versions agree exactly — in exact
arithmetic the global shift of the efficient version and the per-chunk shift
of the stable version both cancel, leaving the identical chunkwise softmax
combination. -/
theorem efficient_eq_stable (E : ℚ → ℚ) (w : ℕ) (hw : 1 ≤ w)
    (α u : Arr B T) (hpos : ∀ q, 0 < E q)
    (hhom : ∀ a b, E (a + b) = E a * E b)
    (hsum : ∀ i, ∑ j, α i j = 1)
    (hclamp : ∀ i j, clampFloor ≤ E (u i j - rowMax u i)) :
    efficient_chunkwise_attention E w α u
      = stable_chunkwise_attention E w α u := by
  have hEsub := hom_map_sub E hpos hhom
  funext i j
  have hExp : ∀ b : Fin T, softmax_exp E u i b = E (u i b - rowMax u i) :=
    fun b => max_eq_left (hclamp i b)
  unfold efficient_chunkwise_attention stable_chunkwise_attention
  rw [moving_sum_apply, show (0 + (w - 1) + 1 : ℕ) = w by omega,
    Finset.mul_sum]
  refine Finset.sum_congr rfl fun k _ => ?_
  unfold padZero
  by_cases hk : j.val + k < T
  · rw [dif_pos (⟨Nat.zero_le _, by omega⟩ :
        0 ≤ j.val + k ∧ j.val + k - 0 < T), dif_pos hk]
    show softmax_exp E u i j *
        (α i ⟨j.val + k, hk⟩
          / softmax_denominators E w u i ⟨j.val + k, hk⟩)
      = α i ⟨j.val + k, hk⟩ *
          E (u i j - moving_max u w i ⟨j.val + k, hk⟩) /
          stable_denominators E w u i ⟨j.val + k, hk⟩
    rw [hExp j,
      softmax_denominators_eq_div E w hw u hpos hEsub hclamp i ⟨j.val + k, hk⟩,
      stable_denominators_eq_div E w u hpos hEsub i ⟨j.val + k, hk⟩,
      hEsub, hEsub]
    have h1 : E (rowMax u i) ≠ 0 := ne_of_gt (hpos _)
    have h2 : E (moving_max u w i ⟨j.val + k, hk⟩) ≠ 0 := ne_of_gt (hpos _)
    have h3 : chunkExpSum E w u i ⟨j.val + k, hk⟩ ≠ 0 :=
      ne_of_gt (chunkExpSum_pos E w hw u hpos i _)
    field_simp
    ring
  · rw [dif_neg (by omega :
      ¬(0 ≤ j.val + k ∧ j.val + k - 0 < T)), dif_neg hk, mul_zero]

/-- Witness for C1: the constant-one exponential (positive, multiplicative,
and the clamp condition holds since `1e-5 ≤ 1`) on the concrete input
`(alphaW, xW)` with `chunk_size = 2`. -/
theorem efficient_eq_stable_witness :
    (1 : ℕ) ≤ 2
    ∧ (∀ q : ℚ, 0 < (fun _ : ℚ => (1 : ℚ)) q)
    ∧ (∀ a b : ℚ, (fun _ : ℚ => (1 : ℚ)) (a + b)
        = (fun _ : ℚ => (1 : ℚ)) a * (fun _ : ℚ => (1 : ℚ)) b)
    ∧ (∀ i, ∑ j, alphaW i j = 1)
    ∧ (∀ i j, clampFloor ≤ (fun _ : ℚ => (1 : ℚ)) (xW i j - rowMax xW i))
    ∧ efficient_chunkwise_attention (fun _ : ℚ => 1) 2 alphaW xW
        = stable_chunkwise_attention (fun _ : ℚ => 1) 2 alphaW xW :=
  ⟨by norm_num, fun q => one_pos, fun a b => (one_mul 1).symm,
    fun i => by rw [Fin.sum_univ_two]; norm_num [alphaW],
    fun i j => by norm_num [clampFloor],
    efficient_eq_stable (fun _ : ℚ => 1) 2 (by norm_num) alphaW xW
      (fun q => one_pos) (fun a b => (one_mul 1).symm)
      (fun i => by rw [Fin.sum_univ_two]; norm_num [alphaW])
      (fun i j => by norm_num [clampFloor])⟩

/-- Every summand of a stable denominator is nonnegative when `E` is
positive. -/
lemma stable_denominators_term_nonneg (E : ℚ → ℚ) (w : ℕ) (u : Arr B T)
    (hpos : ∀ q, 0 < E q) (i : Fin B) (t : Fin T) (k : ℕ) :
    0 ≤ if h : w - 1 ≤ t.val + k ∧ t.val + k - (w - 1) < T then
          E (u i ⟨t.val + k - (w - 1), h.2⟩ - moving_max u w i t)
        else 0 := by
  by_cases h : w - 1 ≤ t.val + k ∧ t.val + k - (w - 1) < T
  · rw [dif_pos h]
    exact le_of_lt (hpos _)
  · rw [dif_neg h]

/-- A position `j` inside the chunk ending at `t` contributes its own
exponential to the stable denominator of that chunk, so the denominator
dominates it. -/
lemma exp_le_stable_denominators (E : ℚ → ℚ) (w : ℕ) (u : Arr B T)
    (hpos : ∀ q, 0 < E q) (i : Fin B) (j t : Fin T)
    (hjt : j.val ≤ t.val) (htw : t.val < j.val + w) :
    E (u i j - moving_max u w i t) ≤ stable_denominators E w u i t := by
  unfold stable_denominators
  have hmem : j.val + (w - 1) - t.val ∈ Finset.range w := by
    simp only [Finset.mem_range]; omega
  have hterm : E (u i j - moving_max u w i t)
      = if h : w - 1 ≤ t.val + (j.val + (w - 1) - t.val)
            ∧ t.val + (j.val + (w - 1) - t.val) - (w - 1) < T then
          E (u i ⟨t.val + (j.val + (w - 1) - t.val) - (w - 1), h.2⟩
            - moving_max u w i t)
        else 0 := by
    rw [dif_pos ⟨by omega, by omega⟩]
    exact congrArg (fun q => E (q - moving_max u w i t))
      (congrArg (u i) (Fin.ext (by dsimp only; omega)))
  calc E (u i j - moving_max u w i t) = _ := hterm
    _ ≤ _ := Finset.single_le_sum
        (fun k _ => stable_denominators_term_nonneg E w u hpos i t k) hmem

/-- The per-chunk denominators of the stable version are strictly
positive. -/
lemma stable_denominators_pos (E : ℚ → ℚ) (w : ℕ) (hw : 1 ≤ w)
    (u : Arr B T) (hpos : ∀ q, 0 < E q) (i : Fin B) (t : Fin T) :
    0 < stable_denominators E w u i t :=
  lt_of_lt_of_le (hpos _)
    (exp_le_stable_denominators E w u hpos i t t le_rfl (by omega))

/-- A position `j` inside the chunk ending at `t` contributes its own clamped
exponential to the efficient denominator of that chunk, so the denominator
dominates it. -/
lemma softmax_exp_le_denominators (E : ℚ → ℚ) (w : ℕ) (u : Arr B T)
    (i : Fin B) (j t : Fin T) (hjt : j.val ≤ t.val)
    (htw : t.val < j.val + w) :
    softmax_exp E u i j ≤ softmax_denominators E w u i t := by
  unfold softmax_denominators
  rw [moving_sum_apply]
  have hmem : j.val + (w - 1) - t.val ∈ Finset.range (w - 1 + 0 + 1) := by
    simp only [Finset.mem_range]; omega
  have hterm : softmax_exp E u i j
      = padZero (softmax_exp E u i) (w - 1)
          (t.val + (j.val + (w - 1) - t.val)) := by
    unfold padZero
    rw [dif_pos ⟨by omega, by omega⟩]
    exact congrArg (softmax_exp E u i) (Fin.ext (by dsimp only; omega))
  calc softmax_exp E u i j = _ := hterm
    _ ≤ _ := Finset.single_le_sum
        (fun k _ => padZero_softmax_exp_nonneg E u i (w - 1) (t.val + k)) hmem

/-- A window sum of in-range values of a nonnegative row summing to `1` is at
most `1`. -/
lemma sum_extendRow_le_one (row : Fin T → ℚ) (h0 : ∀ t, 0 ≤ row t)
    (h1 : ∑ t, row t = 1) (a w : ℕ) :
    ∑ k ∈ Finset.range w, extendRow row (a + k) ≤ 1 := by
  have hnn : ∀ p, 0 ≤ extendRow row p := by
    intro p
    unfold extendRow
    by_cases h : p < T
    · rw [dif_pos h]
      exact h0 _
    · rw [dif_neg h]
  have e1 : ∑ p ∈ Finset.Ico a (a + w), extendRow row p
      = ∑ k ∈ Finset.range (a + w - a), extendRow row (a + k) :=
    Finset.sum_Ico_eq_sum_range _ _ _
  rw [Nat.add_sub_cancel_left] at e1
  rw [← e1]
  have e2 : ∑ p ∈ Finset.range T, extendRow row p
      = ∑ p ∈ Finset.range (a + w + T), extendRow row p := by
    apply Finset.sum_subset
    · intro p hp
      simp only [Finset.mem_range] at hp ⊢
      omega
    · intro p hp hnp
      simp only [Finset.mem_range] at hp hnp
      unfold extendRow
      rw [dif_neg (by omega)]
  have e3 : ∑ p ∈ Finset.range T, extendRow row p = 1 := by
    rw [← h1, ← Fin.sum_univ_eq_sum_range (fun p => extendRow row p) T]
    refine Finset.sum_congr rfl fun t _ => ?_
    unfold extendRow
    rw [dif_pos t.isLt]
  calc ∑ p ∈ Finset.Ico a (a + w), extendRow row p
      ≤ ∑ p ∈ Finset.range (a + w + T), extendRow row p :=
        Finset.sum_le_sum_of_subset_of_nonneg
          (by intro p hp
              simp only [Finset.mem_Ico, Finset.mem_range] at hp ⊢
              omega)
          (fun p _ _ => hnn p)
    _ = ∑ p ∈ Finset.range T, extendRow row p := e2.symm
    _ = 1 := e3

/-- C7: for every positive exponential, emit probabilities with entries in
`[0, 1]` and rows summing to `1`, arbitrary logits and `chunk_size ≥ 1`, both
versions return an array of the same `(batch, T)` shape (enforced by their
types) each entry of which lies in `[0, 1]`. -/
theorem outputs_in_unit_interval (E : ℚ → ℚ) (w : ℕ) (hw : 1 ≤ w)
    (α u : Arr B T) (hpos : ∀ q, 0 < E q)
    (hα0 : ∀ i j, 0 ≤ α i j) (hα1 : ∀ i j, α i j ≤ 1)
    (hsum : ∀ i, ∑ j, α i j = 1) (i : Fin B) (j : Fin T) :
    (0 ≤ efficient_chunkwise_attention E w α u i j
      ∧ efficient_chunkwise_attention E w α u i j ≤ 1)
    ∧ (0 ≤ stable_chunkwise_attention E w α u i j
      ∧ stable_chunkwise_attention E w α u i j ≤ 1) := by
  have heff0 : 0 ≤ efficient_chunkwise_attention E w α u i j := by
    unfold efficient_chunkwise_attention
    apply mul_nonneg (le_of_lt (softmax_exp_pos E u i j))
    rw [moving_sum_apply]
    apply Finset.sum_nonneg
    intro k _
    unfold padZero
    by_cases h : 0 ≤ j.val + k ∧ j.val + k - 0 < T
    · rw [dif_pos h]
      exact div_nonneg (hα0 i _)
        (le_of_lt (softmax_denominators_pos' E u w i _))
    · rw [dif_neg h]
  have heff1 : efficient_chunkwise_attention E w α u i j ≤ 1 := by
    unfold efficient_chunkwise_attention
    rw [moving_sum_apply, show (0 + (w - 1) + 1 : ℕ) = w by omega,
      Finset.mul_sum]
    refine le_trans (Finset.sum_le_sum fun k hk => ?_)
      (sum_extendRow_le_one (α i) (fun t => hα0 i t) (hsum i) j.val w)
    simp only [Finset.mem_range] at hk
    unfold padZero extendRow
    by_cases h : j.val + k < T
    · rw [dif_pos (⟨Nat.zero_le _, by omega⟩ :
          0 ≤ j.val + k ∧ j.val + k - 0 < T), dif_pos h]
      show softmax_exp E u i j *
          (α i ⟨j.val + k, h⟩
            / softmax_denominators E w u i ⟨j.val + k, h⟩)
        ≤ α i ⟨j.val + k, h⟩
      have hD := softmax_denominators_pos' E u w i (⟨j.val + k, h⟩ : Fin T)
      have hle := softmax_exp_le_denominators E w u i j
        (⟨j.val + k, h⟩ : Fin T) (by dsimp only; omega) (by dsimp only; omega)
      have hcomm : softmax_exp E u i j *
          (α i ⟨j.val + k, h⟩
            / softmax_denominators E w u i ⟨j.val + k, h⟩)
          = α i ⟨j.val + k, h⟩ * softmax_exp E u i j
              / softmax_denominators E w u i ⟨j.val + k, h⟩ := by
        ring
      rw [hcomm, div_le_iff₀ hD]
      exact mul_le_mul_of_nonneg_left hle (hα0 i _)
    · rw [dif_neg (by omega : ¬(0 ≤ j.val + k ∧ j.val + k - 0 < T)),
        dif_neg h, mul_zero]
  have hst0 : 0 ≤ stable_chunkwise_attention E w α u i j := by
    unfold stable_chunkwise_attention
    apply Finset.sum_nonneg
    intro k _
    by_cases h : j.val + k < T
    · rw [dif_pos h]
      exact div_nonneg (mul_nonneg (hα0 i _) (le_of_lt (hpos _)))
        (le_of_lt (stable_denominators_pos E w hw u hpos i _))
    · rw [dif_neg h]
  have hst1 : stable_chunkwise_attention E w α u i j ≤ 1 := by
    unfold stable_chunkwise_attention
    refine le_trans (Finset.sum_le_sum fun k hk => ?_)
      (sum_extendRow_le_one (α i) (fun t => hα0 i t) (hsum i) j.val w)
    simp only [Finset.mem_range] at hk
    unfold extendRow
    by_cases h : j.val + k < T
    · rw [dif_pos h, dif_pos h]
      have hd := stable_denominators_pos E w hw u hpos i (⟨j.val + k, h⟩ : Fin T)
      have hle := exp_le_stable_denominators E w u hpos i j
        (⟨j.val + k, h⟩ : Fin T) (by dsimp only; omega) (by dsimp only; omega)
      rw [div_le_iff₀ hd]
      exact mul_le_mul_of_nonneg_left hle (hα0 i _)
    · rw [dif_neg h, dif_neg h]
  exact ⟨⟨heff0, heff1⟩, hst0, hst1⟩

/-- Witness for C7: the constant-one exponential on the concrete input
`(alphaW, xW)` with `chunk_size = 2`, at entry `(0, 0)`. -/
theorem outputs_in_unit_interval_witness :
    (1 : ℕ) ≤ 2
    ∧ (∀ q : ℚ, 0 < (fun _ : ℚ => (1 : ℚ)) q)
    ∧ (∀ i j, 0 ≤ alphaW i j)
    ∧ (∀ i j, alphaW i j ≤ 1)
    ∧ (∀ i, ∑ j, alphaW i j = 1)
    ∧ ((0 ≤ efficient_chunkwise_attention (fun _ : ℚ => 1) 2 alphaW xW 0 0
        ∧ efficient_chunkwise_attention (fun _ : ℚ => 1) 2 alphaW xW 0 0 ≤ 1)
      ∧ (0 ≤ stable_chunkwise_attention (fun _ : ℚ => 1) 2 alphaW xW 0 0
        ∧ stable_chunkwise_attention (fun _ : ℚ => 1) 2 alphaW xW 0 0 ≤ 1)) :=
  ⟨by norm_num, fun q => one_pos,
    fun i j => by norm_num [alphaW],
    fun i j => by norm_num [alphaW],
    fun i => by rw [Fin.sum_univ_two]; norm_num [alphaW],
    outputs_in_unit_interval (fun _ : ℚ => 1) 2 (by norm_num) alphaW xW
      (fun q => one_pos) (fun i j => by norm_num [alphaW])
      (fun i j => by norm_num [alphaW])
      (fun i => by rw [Fin.sum_univ_two]; norm_num [alphaW]) 0 0⟩

end MoCha
